import Mathlib

/-!
Verification of the generation-and-delivery pipeline of the clothes backend.

The Python sources are shallowly embedded here:
* `app/services/prompt_guard.py`      → namespace `PromptGuard`
* `app/services/telegram_service.py`  → namespace `TelegramService`
* `app/services/assistant_service.py` → namespace `AssistantService`
* `app/services/gemini_service.py`    → namespace `GeminiService`

Text is modelled as `List Char`.  Python whitespace handling is modelled over
the ASCII whitespace class (space, tab, newline, carriage return, vertical
tab, form feed); non-ASCII whitespace is outside the model.  External
services (OpenAI runs, Gemini calls, Telegram uploads) are modelled as
oracles passed in as function arguments, and effectful delivery code returns
the trace of channel actions it would perform.
-/

namespace PromptGuard

/-- Python regex class \s restricted to ASCII, as used by `re.sub(r"\s+", " ")`
and `str.strip()` in `prompt_guard.sanitize`. -/
def isPySpace (c : Char) : Bool :=
  c = ' ' || c = '\t' || c = '\n' || c = '\r' || c = '\x0b' || c = '\x0c'

/-- Embedding of `text.replace("```", "")`: scan left to right, removing each
leftmost occurrence of three backticks and continuing after it. -/
def removeTicks : List Char → List Char
  | [] => []
  | [c] => [c]
  | [c1, c2] => [c1, c2]
  | c1 :: c2 :: c3 :: rest =>
    if c1 = '\x60' ∧ c2 = '\x60' ∧ c3 = '\x60' then removeTicks rest
    else c1 :: removeTicks (c2 :: c3 :: rest)

mutual

/-- Embedding of `re.sub(r"\s+", " ", s)` (scanning outside a whitespace run):
each maximal whitespace run becomes a single space. -/
def collapseWs : List Char → List Char
  | [] => []
  | c :: rest =>
    if isPySpace c then ' ' :: collapseInRun rest else c :: collapseWs rest

/-- State of `collapseWs` inside a whitespace run: the single replacement
space has already been emitted, further whitespace is dropped. -/
def collapseInRun : List Char → List Char
  | [] => []
  | c :: rest =>
    if isPySpace c then collapseInRun rest else c :: collapseWs rest

end

/-- Embedding of the right half of `str.strip()`: drop trailing whitespace. -/
def rstripSpaces : List Char → List Char
  | [] => []
  | c :: rest =>
    match rstripSpaces rest with
    | [] => if isPySpace c then [] else [c]
    | d :: r => c :: d :: r

/-- Embedding of `str.strip()`: drop leading and trailing whitespace. -/
def stripChars (s : List Char) : List Char :=
  rstripSpaces (List.dropWhile isPySpace s)

/-- Embedding of `prompt_guard.sanitize`: remove code-fence markers, collapse
whitespace runs to single spaces, trim both ends. -/
def sanitize (text : List Char) : List Char :=
  stripChars (collapseWs (removeTicks text))

/-- Python substring test `needle in hay`. -/
def containsSub (needle : List Char) : List Char → Bool
  | [] => needle.isEmpty
  | c :: rest => needle.isPrefixOf (c :: rest) || containsSub needle rest

/-- Embedding of `prompt_guard.FORBIDDEN_KEYWORDS`.  The Python value is a
`set`; it is modelled as a list in source-text order (iteration order of a
Python string set is unspecified, and no claim below depends on which of
several simultaneously matching terms is reported). -/
def FORBIDDEN_KEYWORDS : List (List Char) :=
  ["nude".toList, "nudity".toList, "lingerie".toList, "bikini".toList,
   "underwear".toList, "see-through".toList, "transparent".toList,
   "sheer".toList, "explicit".toList, "erotic".toList, "fetish".toList,
   "latex catsuit".toList, "latex bodysuit".toList, "lolita".toList,
   "schoolgirl".toList, "teen".toList, "underage".toList, "minor".toList,
   "gucci".toList, "prada".toList, "chanel".toList, "versace".toList,
   "balenciaga".toList, "dior".toList, "fendi".toList, "ysl".toList,
   "saint laurent".toList, "louis vuitton".toList, "lv".toList,
   "hermes".toList, "burberry".toList, "celine".toList, "armani".toList,
   "valentino".toList, "givenchy".toList, "coach".toList, "bottega".toList,
   "miu miu".toList, "dolce".toList, "gabbana".toList]

/-- Embedding of `prompt_guard.REQUIRED_KEYWORDS` (a two-element Python set),
modelled in source-text order. -/
def REQUIRED_KEYWORDS : List (List Char) :=
  ["leather".toList, "vertical".toList]

def MIN_LENGTH : Nat := 200

def MAX_LENGTH : Nat := 900

/-- Python `str.lower()`, ASCII case folding. -/
def lowerStr (s : List Char) : List Char := s.map Char.toLower

/-- Embedding of `prompt_guard.validate_prompt`: sanitize, reject empty text,
then the first matching forbidden keyword, then the first missing required
keyword, then length bounds; first violation wins. -/
def validate_prompt (text : List Char) : Bool × List Char :=
  let sanitized := sanitize text
  if sanitized.isEmpty then (false, "empty_prompt".toList)
  else
    let normalized := lowerStr sanitized
    match FORBIDDEN_KEYWORDS.find? (fun k => containsSub k normalized) with
    | some k => (false, "forbidden_keyword:".toList ++ k)
    | none =>
      match REQUIRED_KEYWORDS.find? (fun k => !containsSub k normalized) with
      | some k => (false, "missing_required:".toList ++ k)
      | none =>
        if sanitized.length < MIN_LENGTH then (false, "prompt_too_short".toList)
        else if sanitized.length > MAX_LENGTH then (false, "prompt_too_long".toList)
        else (true, [])

/-- Verification predicate: the text contains an occurrence of the fence
marker, three consecutive backticks. -/
def HasTriple (s : List Char) : Prop :=
  ∃ l r : List Char, s = l ++ ['\x60', '\x60', '\x60'] ++ r

/-- Verification predicate: no two adjacent characters are both whitespace. -/
def noAdjSpace : List Char → Prop
  | c :: d :: rest => ¬(isPySpace c = true ∧ isPySpace d = true) ∧ noAdjSpace (d :: rest)
  | _ => True

end PromptGuard

namespace TelegramService

/-- Python `piece.split(sep)` for a one-character separator, as used by
`chunk_text._split_recursive` with separators `"\n"` and `" "`.  Always
returns a non-empty list of pieces. -/
def splitOnChar (sep : Char) : List Char → List (List Char)
  | [] => [[]]
  | c :: rest =>
    if c = sep then [] :: splitOnChar sep rest
    else
      match splitOnChar sep rest with
      | [] => [[c]]
      | p :: ps => (c :: p) :: ps

/-- Python `segment.split("\n\n")`: leftmost, non-overlapping occurrences of
two consecutive newline characters. -/
def splitOnNN : List Char → List (List Char)
  | [] => [[]]
  | [c] => [[c]]
  | c1 :: c2 :: rest =>
    if c1 = '\n' ∧ c2 = '\n' then [] :: splitOnNN rest
    else
      match splitOnNN (c2 :: rest) with
      | [] => [[c1]]
      | p :: ps => (c1 :: p) :: ps

/-- Innermost level of `chunk_text._split_recursive`: split a line on single
spaces, keeping each separator as its own unit between the word pieces. -/
def unitsOfLine (p : List Char) : List (List Char) :=
  List.intersperse [' '] (splitOnChar ' ' p)

/-- Middle level of `chunk_text._split_recursive`: split a paragraph on
single newlines, recurse into each line, keep the separators as units. -/
def unitsOfPara (p : List Char) : List (List Char) :=
  List.flatten (List.intersperse [['\n']] ((splitOnChar '\n' p).map unitsOfLine))

/-- Top level of `chunk_text._split_recursive` applied to the separator list
`["\n\n", "\n", " "]`: the ordered unit list the packing loop consumes. -/
def unitsOfText (t : List Char) : List (List Char) :=
  List.flatten (List.intersperse [['\n', '\n']] ((splitOnNN t).map unitsOfPara))

/-- Value of `available` after the `if available <= 0:` fixup at the top of
the inner loop of `chunk_text` (with `limit - current.length` computed in
`Nat`, `available <= 0` is `limit - current.length = 0`). -/
def availAfterFix (limit : Nat) (current : List Char) : Nat :=
  if limit - current.length = 0 then limit else limit - current.length

/-- Value of `(chunks, current)` after the `if available <= 0:` fixup: a full
`current` is flushed to `chunks` before more characters are taken. -/
def fixState (limit : Nat) (chunks : List (List Char)) (current : List Char) :
    List (List Char) × List Char :=
  if limit - current.length = 0 then
    if current.isEmpty then (chunks, current) else (chunks ++ [current], [])
  else (chunks, current)

/-- Embedding of the inner `while remaining:` loop of `chunk_text`.  State is
`(chunks, current)`; the returned third component is the value of
`remaining` when the loop stops (non-empty exactly on the `take <= 0`
break). -/
def consumeUnit (limit : Nat) (chunks : List (List Char)) (current : List Char) :
    List Char → List (List Char) × List Char × List Char
  | [] => (chunks, current, [])
  | c :: rest =>
    if h : min (c :: rest).length (availAfterFix limit current) = 0 then
      ((fixState limit chunks current).1, (fixState limit chunks current).2, c :: rest)
    else
      let tk := min (c :: rest).length (availAfterFix limit current)
      let current2 := (fixState limit chunks current).2 ++ (c :: rest).take tk
      let remaining2 := (c :: rest).drop tk
      if limit ≤ current2.length then
        consumeUnit limit ((fixState limit chunks current).1 ++ [current2]) [] remaining2
      else consumeUnit limit (fixState limit chunks current).1 current2 remaining2
  termination_by remaining => remaining.length
  decreasing_by
    all_goals
      simp only [List.length_drop, List.length_cons]
      omega

/-- Embedding of one iteration of the `for unit in units:` loop of
`chunk_text`, including the `if unit == "": continue` skip and the trailing
`if not remaining and len(current) == limit:` flush. -/
def processUnit (limit : Nat) (st : List (List Char) × List Char) (u : List Char) :
    List (List Char) × List Char :=
  if u.isEmpty then st
  else
    let r := consumeUnit limit st.1 st.2 u
    if r.2.2.isEmpty ∧ r.2.1.length = limit then (r.1 ++ [r.2.1], [])
    else (r.1, r.2.1)

/-- Embedding of the final fallback of `chunk_text`:
`for start in range(0, len(text), limit): chunks.append(text[start:start+limit])`.
The `limit = 0` guard is unreachable from `chunk_text` (Python `range` with a
zero step would raise) and only secures termination. -/
def fallbackChunks (limit : Nat) (text : List Char) : List (List Char) :=
  if text.isEmpty then []
  else if h : limit = 0 then [text]
  else text.take limit :: fallbackChunks limit (text.drop limit)
  termination_by text.length
  decreasing_by
    simp only [List.length_drop]
    rcases text with _ | ⟨c, rest⟩
    · simp_all
    · simp only [List.length_cons]
      omega

/-- Embedding of `telegram_service.chunk_text`.  Python raises `ValueError`
for a non-positive limit; with `limit : Nat` that is the `limit = 0` case,
modelled as `none`. -/
def chunk_text (text : List Char) (limit : Nat) : Option (List (List Char)) :=
  if limit = 0 then none
  else if text.isEmpty then some []
  else if text.length ≤ limit then some [text]
  else
    let units := unitsOfText text
    let st := units.foldl (processUnit limit) ([], [])
    let chunks := if st.2.isEmpty then st.1 else st.1 ++ [st.2]
    some (if chunks.isEmpty then fallbackChunks limit text else chunks)

/-- Embedding of `telegram_service.sanitize_caption`: drop control characters
other than newline, carriage return and tab, then truncate to `limit`.  The
UTF-8 encode/decode round trip with `errors="ignore"` is the identity on the
character sequences modelled here. -/
def sanitize_caption (caption : List Char) (limit : Nat) : List Char :=
  let cleaned := caption.filter (fun ch => ' ' ≤ ch || ch = '\n' || ch = '\r' || ch = '\t')
  cleaned.take limit

/-- One observable call to the Telegram client made by the delivery code. -/
inductive TgAction where
  | upload (idx : Nat)
  | sendAlbum
  | sendMsg (chunk : List Char)
  deriving DecidableEq

/-- Error message of the album-size `ValueError` raised by the delivery
functions. -/
def tooManyMsg : List Char :=
  "Telegram supports at most 10 media files per album".toList

/-- Embedding of `telegram_service.send_images_and_prompt`, recording the
trace of client calls.  External calls themselves are modelled as succeeding
(flood-wait retries never fire), which is sufficient for the control flow
verified here: the album-size check happens before any call is issued.
Images are identified by their position. -/
def send_images_and_prompt (images : List (List Nat)) (promptText : List Char)
    (header : Option (List Char)) : List TgAction × Option (List Char) :=
  if ¬images.isEmpty ∧ 10 < images.length then ([], some tooManyMsg)
  else
    let uploadActs := (List.range images.length).map TgAction.upload
    let albumActs : List TgAction := if images.isEmpty then [] else [TgAction.sendAlbum]
    let headerParts : List (List Char) :=
      match header with
      | some hd =>
        let headerLine := PromptGuard.stripChars hd
        if headerLine.isEmpty then [] else [headerLine, []]
      | none => []
    let textParts : List (List Char) := headerParts ++ ["Prompt:".toList, promptText]
    let fullText := List.flatten (List.intersperse ['\n'] textParts)
    match chunk_text fullText 4096 with
    | none => ([], some "unreachable".toList)
    | some chunks => (uploadActs ++ albumActs ++ chunks.map TgAction.sendMsg, none)

/-- Embedding of `telegram_service.send_images_with_caption`: empty album
degrades to one text message, an album larger than ten raises, otherwise the
sanitized caption is forwarded to `send_images_and_prompt`. -/
def send_images_with_caption (images : List (List Nat)) (caption : List Char) :
    List TgAction × Option (List Char) :=
  if images.isEmpty then
    ([TgAction.sendMsg (sanitize_caption caption 1024 ++ "\n(no images)".toList)], none)
  else if 10 < images.length then ([], some tooManyMsg)
  else send_images_and_prompt images (sanitize_caption caption 1024) none

end TelegramService

namespace AssistantService

/-- Oracle describing what the external Assistants API does on one attempt of
`generate_prompt_text`: `runResult = none` models the polling loop hitting
its deadline (`RuntimeError("assistant_run_timeout")`), `some status` the
terminal status returned by `_poll_run`; `extractedText = none` models
`_extract_latest_text` finding no assistant text
(`RuntimeError("assistant_no_text_response")`), `some raw` the fetched text.
The freshly composed randomized user instruction of each attempt is covered
by the oracle being indexed per attempt. -/
structure AttemptEnv where
  runResult : Option (List Char)
  extractedText : Option (List Char)

/-- Embedding of the `for attempt in range(2)` loop of
`generate_prompt_text`.  `fuel` counts the remaining loop iterations;
`lastReason` mirrors the Python `last_reason` variable, which is only ever
logged — the post-loop failure carries the fixed message
`"prompt_guard_blocked"`. -/
def generateGo (envs : Nat → AttemptEnv) : Nat → Nat → Option (List Char) →
    Except (List Char) (List Char)
  | _, 0, _ => Except.error ("prompt_guard_blocked".toList)
  | attempt, fuel + 1, lastReason =>
    match (envs attempt).runResult with
    | none => Except.error ("assistant_run_timeout".toList)
    | some status =>
      if status ≠ "completed".toList then
        Except.error ("assistant_run_".toList ++ status)
      else
        match (envs attempt).extractedText with
        | none => Except.error ("assistant_no_text_response".toList)
        | some raw =>
          let sanitized := PromptGuard.sanitize raw
          if sanitized.isEmpty then Except.error ("assistant_empty_prompt".toList)
          else
            let verdict := PromptGuard.validate_prompt sanitized
            if verdict.1 then Except.ok sanitized
            else
              generateGo envs (attempt + 1) fuel
                (some (if verdict.2.isEmpty then "unsafe_prompt".toList else verdict.2))

/-- Embedding of `assistant_service.generate_prompt_text`: two attempts, each
driven by the per-attempt oracle. -/
def generate_prompt_text (envs : Nat → AttemptEnv) : Except (List Char) (List Char) :=
  generateGo envs 0 2 none

end AssistantService

namespace GeminiService

/-- The attributes of a raised exception inspected by
`gemini_service._is_transient_error`: the `ConnectionError`/`TimeoutError`
instance check, the optional integer attributes `status_code`, `code` and
`response.status_code`, and `str(exc)`. -/
structure GemErr where
  connTimeout : Bool
  statusCode : Option Int
  code : Option Int
  responseStatus : Option Int
  message : List Char
  deriving DecidableEq

/-- Numeric status/code in the 500..599 range. -/
def in5xx : Option Int → Bool
  | some k => decide (500 ≤ k ∧ k < 600)
  | none => false

/-- The message tokens treated as transient by `_is_transient_error`. -/
def transientTokens : List (List Char) :=
  [" 500".toList, " 502".toList, " 503".toList, " 504".toList,
   "5xx".toList, "temporarily unavailable".toList]

/-- Embedding of `gemini_service._is_transient_error`. -/
def is_transient_error (e : GemErr) : Bool :=
  e.connTimeout || in5xx e.statusCode || in5xx e.code || in5xx e.responseStatus ||
    transientTokens.any (fun t => PromptGuard.containsSub t (PromptGuard.lowerStr e.message))

/-- Embedding of the `for attempt in range(2)` loop of
`gemini_service._run_with_retry`; `f i` is the outcome of the `i`-th
invocation of the wrapped callable.  The post-loop `raise` arms are
unreachable from `run_with_retry` and kept for faithfulness. -/
def runWithRetryGo (f : Nat → Except GemErr α) : Nat → Nat → Option GemErr →
    Except GemErr α
  | _, 0, lastError =>
    match lastError with
    | some e => Except.error e
    | none => Except.error ⟨false, none, none, none, "unreachable".toList⟩
  | attempt, fuel + 1, lastError =>
    match f attempt with
    | Except.ok a => Except.ok a
    | Except.error e =>
      if attempt = 0 ∧ is_transient_error e then runWithRetryGo f (attempt + 1) fuel (some e)
      else Except.error e

/-- Embedding of `gemini_service._run_with_retry`. -/
def run_with_retry (f : Nat → Except GemErr α) : Except GemErr α :=
  runWithRetryGo f 0 2 none

/-- Outcome of one call to `_generate_with_images_api` for a requested count:
the experimental surface can be structurally unavailable
(`_ImagesApiUnavailable`, which triggers the fallback), raise some other
error (which propagates), or return payloads. -/
inductive ImagesApiOutcome where
  | unavailable
  | failed (e : List Char)
  | ok (imgs : List (List Nat))

/-- Python `str.upper()`, ASCII case folding, for the aspect key. -/
def upperStr (s : List Char) : List Char := s.map Char.toUpper

/-- Embedding of `size_map.get(aspect_key, "1024x1536")`. -/
def aspectSize (aspectKey : List Char) : List Char :=
  if aspectKey = "VERTICAL".toList then "1024x1536".toList
  else if aspectKey = "SQUARE".toList then "1024x1024".toList
  else "1024x1536".toList

/-- Embedding of the framing hint chosen from the aspect key. -/
def framingHint (aspectKey : List Char) : List Char :=
  if aspectKey = "SQUARE".toList then "Square framing, full outfit visible".toList
  else "Vertical portrait framing, full outfit visible".toList

/-- Embedding of `prompt_hint = f"{prompt}\n\n{framing_hint}; target feel
~{size_str}."` built by `generate_images`. -/
def promptHint (prompt aspect : List Char) : List Char :=
  prompt ++ "\n\n".toList ++ framingHint (upperStr aspect) ++ "; target feel ~".toList ++
    aspectSize (upperStr aspect) ++ ".".toList

/-- Embedding of the `while len(images) < n and attempts < 2:` loop of
`generate_images`.  `imagesApi hint remaining` is the outcome of the pass-0
preferred-interface call, `modelApi hint attempts remaining` the outcome of
a `_generate_with_model` call on the given pass.  `fuel` starts at 2 and
equals `2 - attempts` throughout, so the `attempts < 2` test is kept
verbatim. -/
def genLoop (n : Nat) (hint : List Char) (imagesApi : List Char → Nat → ImagesApiOutcome)
    (modelApi : List Char → Nat → Nat → Except (List Char) (List (List Nat))) :
    Nat → List (List Nat) → Nat → Except (List Char) (List (List Nat))
  | 0, images, _ =>
    if images.isEmpty then Except.error ("no_images_generated".toList)
    else Except.ok (if n < images.length then images.take n else images)
  | fuel + 1, images, attempts =>
    if images.length < n ∧ attempts < 2 then
      let remaining := n - images.length
      let callResult :=
        if attempts = 0 then
          match imagesApi hint remaining with
          | ImagesApiOutcome.unavailable => modelApi hint attempts remaining
          | ImagesApiOutcome.failed e => Except.error e
          | ImagesApiOutcome.ok imgs => Except.ok imgs
        else modelApi hint attempts remaining
      match callResult with
      | Except.error e => Except.error e
      | Except.ok newImages =>
        genLoop n hint imagesApi modelApi fuel (images ++ newImages) (attempts + 1)
    else
      if images.isEmpty then Except.error ("no_images_generated".toList)
      else Except.ok (if n < images.length then images.take n else images)

/-- Embedding of `gemini_service.generate_images`: input validation, the
aspect-dependent prompt hint, the two-pass collection loop, the empty-result
hard failure and the truncation to `n`. -/
def generate_images (prompt : List Char) (n : Nat) (aspect fmt : List Char)
    (imagesApi : List Char → Nat → ImagesApiOutcome)
    (modelApi : List Char → Nat → Nat → Except (List Char) (List (List Nat))) :
    Except (List Char) (List (List Nat)) :=
  if (PromptGuard.stripChars prompt).isEmpty then
    Except.error ("prompt must be a non-empty string".toList)
  else if ¬(1 ≤ n ∧ n ≤ 4) then Except.error ("n must be between 1 and 4".toList)
  else if PromptGuard.lowerStr fmt ≠ "png".toList then
    Except.error ("unsupported image format".toList)
  else genLoop n (promptHint prompt aspect) imagesApi modelApi 2 [] 0

end GeminiService

open PromptGuard TelegramService AssistantService GeminiService

lemma splitOnChar_ne_nil (sep : Char) (s : List Char) : splitOnChar sep s ≠ [] := by
  cases s with
  | nil => simp [splitOnChar]
  | cons c rest =>
    rw [splitOnChar]
    by_cases h : c = sep
    · simp [h]
    · rw [if_neg h]
      cases hs : splitOnChar sep rest <;> simp

lemma flatten_intersperse_cons (sep p : List Char) (L : List (List Char)) (hL : L ≠ []) :
    (List.intersperse sep (p :: L)).flatten = p ++ sep ++ (List.intersperse sep L).flatten := by
  cases L with
  | nil => exact absurd rfl hL
  | cons q qs =>
    rw [List.intersperse_cons_cons]
    simp [List.append_assoc]

lemma flatten_intersperse_splitOnChar (sep : Char) (s : List Char) :
    (List.intersperse [sep] (splitOnChar sep s)).flatten = s := by
  induction s with
  | nil => simp [splitOnChar]
  | cons c rest ih =>
    rw [splitOnChar]
    by_cases h : c = sep
    · rw [if_pos h]
      rw [flatten_intersperse_cons [sep] [] (splitOnChar sep rest) (splitOnChar_ne_nil sep rest)]
      rw [ih, h]
      simp
    · rw [if_neg h]
      rcases hs : splitOnChar sep rest with _ | ⟨p, ps⟩
      · exact absurd hs (splitOnChar_ne_nil sep rest)
      · rw [hs] at ih
        cases ps with
        | nil =>
          simp only [List.intersperse_single, List.flatten_cons, List.flatten_nil,
            List.append_nil] at ih ⊢
          rw [ih]
        | cons q qs =>
          rw [flatten_intersperse_cons [sep] (c :: p) (q :: qs) (by simp)]
          rw [flatten_intersperse_cons [sep] p (q :: qs) (by simp)] at ih
          simp only [List.cons_append, List.append_assoc] at ih ⊢
          rw [ih]

lemma splitOnNN_ne_nil (s : List Char) : splitOnNN s ≠ [] := by
  induction s using splitOnNN.induct with
  | case1 => simp [splitOnNN]
  | case2 c => simp [splitOnNN]
  | case3 c1 c2 rest h ih => rw [splitOnNN, if_pos h]; simp
  | case4 c1 c2 rest h hs ih => rw [splitOnNN, if_neg h, hs]; simp
  | case5 c1 c2 rest h p ps hs ih => rw [splitOnNN, if_neg h, hs]; simp

lemma flatten_intersperse_splitOnNN (s : List Char) :
    (List.intersperse ['\n', '\n'] (splitOnNN s)).flatten = s := by
  induction s using splitOnNN.induct with
  | case1 => simp [splitOnNN]
  | case2 c => simp [splitOnNN]
  | case3 c1 c2 rest h ih =>
    rw [splitOnNN, if_pos h]
    rw [flatten_intersperse_cons ['\n', '\n'] [] (splitOnNN rest) (splitOnNN_ne_nil rest)]
    rw [ih, h.1, h.2]
    simp
  | case4 c1 c2 rest h hs ih => exact absurd hs (splitOnNN_ne_nil (c2 :: rest))
  | case5 c1 c2 rest h p ps hs ih =>
    rw [splitOnNN, if_neg h, hs]
    rw [hs] at ih
    cases ps with
    | nil =>
      simp only [List.intersperse_single, List.flatten_cons, List.flatten_nil,
        List.append_nil] at ih ⊢
      rw [ih]
    | cons q qs =>
      rw [flatten_intersperse_cons ['\n', '\n'] (c1 :: p) (q :: qs) (by simp)]
      rw [flatten_intersperse_cons ['\n', '\n'] p (q :: qs) (by simp)] at ih
      simp only [List.cons_append, List.append_assoc] at ih ⊢
      rw [ih]

lemma flatten_flatten_intersperse (sep : List Char) :
    ∀ L : List (List (List Char)),
      ((List.intersperse [sep] L).flatten).flatten =
        (List.intersperse sep (L.map List.flatten)).flatten
  | [] => by simp
  | [a] => by simp
  | a :: b :: t => by
    rw [List.intersperse_cons_cons]
    have hrec := flatten_flatten_intersperse sep (b :: t)
    simp only [List.map_cons, List.intersperse_cons_cons, List.flatten_cons] at hrec ⊢
    simp only [List.flatten_append, List.flatten_cons, List.flatten_nil, List.append_nil,
      List.append_assoc] at hrec ⊢
    rw [hrec]

lemma flatten_unitsOfLine (p : List Char) : (unitsOfLine p).flatten = p :=
  flatten_intersperse_splitOnChar ' ' p

lemma flatten_unitsOfPara (p : List Char) : (unitsOfPara p).flatten = p := by
  rw [unitsOfPara, flatten_flatten_intersperse, List.map_map]
  have hid : List.flatten ∘ unitsOfLine = id := funext flatten_unitsOfLine
  rw [hid, List.map_id]
  exact flatten_intersperse_splitOnChar '\n' p

lemma flatten_unitsOfText (t : List Char) : (unitsOfText t).flatten = t := by
  rw [unitsOfText, flatten_flatten_intersperse, List.map_map]
  have hid : List.flatten ∘ unitsOfPara = id := funext flatten_unitsOfPara
  rw [hid, List.map_id]
  exact flatten_intersperse_splitOnNN t

lemma availAfterFix_of_lt {limit : Nat} {current : List Char}
    (h : current.length < limit) : availAfterFix limit current = limit - current.length := by
  rw [availAfterFix, if_neg]
  omega

lemma fixState_of_lt {limit : Nat} {current : List Char} (chunks : List (List Char))
    (h : current.length < limit) : fixState limit chunks current = (chunks, current) := by
  rw [fixState, if_neg]
  omega

lemma consumeUnit_cons_eq (limit : Nat) (chunks : List (List Char)) (current : List Char)
    (c : Char) (rest : List Char) (hcur : current.length < limit) :
    consumeUnit limit chunks current (c :: rest) =
      if limit ≤ (current ++ (c :: rest).take (min (rest.length + 1) (limit - current.length))).length
      then
        consumeUnit limit
          (chunks ++ [current ++ (c :: rest).take (min (rest.length + 1) (limit - current.length))])
          [] ((c :: rest).drop (min (rest.length + 1) (limit - current.length)))
      else
        consumeUnit limit chunks
          (current ++ (c :: rest).take (min (rest.length + 1) (limit - current.length)))
          ((c :: rest).drop (min (rest.length + 1) (limit - current.length))) := by
  have htk : ¬min (c :: rest).length (availAfterFix limit current) = 0 := by
    rw [availAfterFix_of_lt hcur]
    simp only [List.length_cons]
    omega
  rw [consumeUnit, dif_neg htk]
  rw [availAfterFix_of_lt hcur, fixState_of_lt chunks hcur]
  simp only [List.length_cons]

lemma consumeUnit_spec (limit : Nat) (hl : 1 ≤ limit) :
    ∀ (n : Nat) (remaining chunks current), remaining.length ≤ n →
      current.length < limit → (∀ ch ∈ chunks, ch.length ≤ limit) →
      (consumeUnit limit chunks current remaining).2.2 = [] ∧
      (consumeUnit limit chunks current remaining).2.1.length < limit ∧
      (∀ ch ∈ (consumeUnit limit chunks current remaining).1, ch.length ≤ limit) ∧
      (consumeUnit limit chunks current remaining).1.flatten ++
          (consumeUnit limit chunks current remaining).2.1 =
        chunks.flatten ++ (current ++ remaining) := by
  intro n
  induction n with
  | zero =>
    intro remaining chunks current hlen hcur hb
    have hnil : remaining = [] := List.length_eq_zero.mp (Nat.le_zero.mp hlen)
    subst hnil
    simp only [consumeUnit]
    exact ⟨by simp, hcur, hb, by simp⟩
  | succ m ih =>
    intro remaining chunks current hlen hcur hb
    cases remaining with
    | nil =>
      simp only [consumeUnit]
      exact ⟨by simp, hcur, hb, by simp⟩
    | cons c rest =>
      rw [consumeUnit_cons_eq limit chunks current c rest hcur]
      have htk1 : 1 ≤ min (rest.length + 1) (limit - current.length) := by omega
      have htk2 : min (rest.length + 1) (limit - current.length) ≤ rest.length + 1 :=
        Nat.min_le_left _ _
      have htk3 : min (rest.length + 1) (limit - current.length) ≤ limit - current.length :=
        Nat.min_le_right _ _
      have hlen2 :
          (current ++ (c :: rest).take (min (rest.length + 1) (limit - current.length))).length =
            current.length + min (rest.length + 1) (limit - current.length) := by
        simp only [List.length_append, List.length_take, List.length_cons]
        omega
      have hdlen :
          ((c :: rest).drop (min (rest.length + 1) (limit - current.length))).length ≤ m := by
        simp only [List.length_drop, List.length_cons]
        simp only [List.length_cons] at hlen
        omega
      have hjoin :
          current ++ (c :: rest).take (min (rest.length + 1) (limit - current.length)) ++
              (c :: rest).drop (min (rest.length + 1) (limit - current.length)) =
            current ++ (c :: rest) := by
        rw [List.append_assoc, List.take_append_drop]
      by_cases hfull :
          limit ≤ (current ++ (c :: rest).take (min (rest.length + 1) (limit - current.length))).length
      · rw [if_pos hfull]
        have hx := ih ((c :: rest).drop (min (rest.length + 1) (limit - current.length)))
          (chunks ++ [current ++ (c :: rest).take (min (rest.length + 1) (limit - current.length))])
          [] hdlen (by simpa using hl)
          (by
            intro ch hch
            rcases List.mem_append.mp hch with hmem | hmem
            · exact hb ch hmem
            · rw [List.mem_singleton.mp hmem, hlen2]
              omega)
        refine ⟨hx.1, hx.2.1, hx.2.2.1, ?_⟩
        rw [hx.2.2.2]
        rw [List.flatten_append, List.flatten_cons, List.flatten_nil, List.append_nil]
        rw [List.nil_append, List.append_assoc, List.append_assoc, List.take_append_drop]
      · rw [if_neg hfull]
        have hx := ih ((c :: rest).drop (min (rest.length + 1) (limit - current.length)))
          chunks
          (current ++ (c :: rest).take (min (rest.length + 1) (limit - current.length)))
          hdlen (by omega) hb
        refine ⟨hx.1, hx.2.1, hx.2.2.1, ?_⟩
        rw [hx.2.2.2, ← List.append_assoc, ← List.append_assoc]
        rw [List.append_assoc (chunks.flatten ++ current), List.take_append_drop]
        rw [List.append_assoc]

lemma processUnit_spec (limit : Nat) (hl : 1 ≤ limit) (st : List (List Char) × List Char)
    (u : List Char) (hc : st.2.length < limit) (hb : ∀ ch ∈ st.1, ch.length ≤ limit) :
    (processUnit limit st u).2.length < limit ∧
    (∀ ch ∈ (processUnit limit st u).1, ch.length ≤ limit) ∧
    (processUnit limit st u).1.flatten ++ (processUnit limit st u).2 =
      st.1.flatten ++ st.2 ++ u := by
  rw [processUnit]
  by_cases hu : u.isEmpty
  · rw [if_pos hu]
    have : u = [] := by simpa [List.isEmpty_iff] using hu
    subst this
    exact ⟨hc, hb, by simp⟩
  · rw [if_neg hu]
    have hx := consumeUnit_spec limit hl u.length u st.1 st.2 le_rfl hc hb
    have hcond : ¬((consumeUnit limit st.1 st.2 u).2.2.isEmpty ∧
        (consumeUnit limit st.1 st.2 u).2.1.length = limit) := by
      intro hcontra
      exact absurd hcontra.2 (Nat.ne_of_lt hx.2.1)
    rw [if_neg hcond]
    exact ⟨hx.2.1, hx.2.2.1, by rw [hx.2.2.2, List.append_assoc]⟩

lemma foldl_processUnit_spec (limit : Nat) (hl : 1 ≤ limit) :
    ∀ (units : List (List Char)) (st : List (List Char) × List Char),
      st.2.length < limit → (∀ ch ∈ st.1, ch.length ≤ limit) →
      (units.foldl (processUnit limit) st).2.length < limit ∧
      (∀ ch ∈ (units.foldl (processUnit limit) st).1, ch.length ≤ limit) ∧
      (units.foldl (processUnit limit) st).1.flatten ++
          (units.foldl (processUnit limit) st).2 =
        st.1.flatten ++ st.2 ++ units.flatten := by
  intro units
  induction units with
  | nil => intro st hc hb; exact ⟨hc, hb, by simp⟩
  | cons u us ih =>
    intro st hc hb
    have hstep := processUnit_spec limit hl st u hc hb
    have hrec := ih (processUnit limit st u) hstep.1 hstep.2.1
    refine ⟨hrec.1, hrec.2.1, ?_⟩
    rw [List.foldl_cons] at *
    rw [hrec.2.2, hstep.2.2, List.flatten_cons]
    simp [List.append_assoc]

lemma chunk_text_main_branch (text : List Char) (limit : Nat) (h0 : ¬limit = 0)
    (h1 : ¬text.isEmpty) (h2 : ¬text.length ≤ limit) :
    chunk_text text limit =
      some
        (if (if ((unitsOfText text).foldl (processUnit limit) ([], [])).2.isEmpty then
              ((unitsOfText text).foldl (processUnit limit) ([], [])).1
            else
              ((unitsOfText text).foldl (processUnit limit) ([], [])).1 ++
                [((unitsOfText text).foldl (processUnit limit) ([], [])).2]).isEmpty then
          fallbackChunks limit text
        else
          if ((unitsOfText text).foldl (processUnit limit) ([], [])).2.isEmpty then
            ((unitsOfText text).foldl (processUnit limit) ([], [])).1
          else
            ((unitsOfText text).foldl (processUnit limit) ([], [])).1 ++
              [((unitsOfText text).foldl (processUnit limit) ([], [])).2]) := by
  unfold chunk_text
  rw [if_neg h0, if_neg h1, if_neg h2]

/-- C1: for every input text and every limit of at least one character,
`chunk_text` succeeds and returns an ordered list of chunks whose
concatenation is exactly the input text (nothing dropped, nothing
duplicated, nothing inserted) with every chunk of length at most the
limit. -/
theorem C1_chunk_text_roundtrip (text : List Char) (limit : Nat) (hl : 1 ≤ limit) :
    ∃ chunks, chunk_text text limit = some chunks ∧
      chunks.flatten = text ∧ ∀ ch ∈ chunks, ch.length ≤ limit := by
  by_cases hempty : text.isEmpty
  · refine ⟨[], ?_, ?_, by simp⟩
    · unfold chunk_text
      rw [if_neg (by omega), if_pos hempty]
    · simp [List.isEmpty_iff.mp hempty]
  · by_cases hfits : text.length ≤ limit
    · refine ⟨[text], ?_, by simp, by simpa using hfits⟩
      unfold chunk_text
      rw [if_neg (by omega), if_neg hempty, if_pos hfits]
    · have hfold := foldl_processUnit_spec limit hl (unitsOfText text) ([], [])
        (by simpa using hl) (by simp)
      have hflat :
          ((unitsOfText text).foldl (processUnit limit) ([], [])).1.flatten ++
            ((unitsOfText text).foldl (processUnit limit) ([], [])).2 = text := by
        have h := hfold.2.2
        simpa [flatten_unitsOfText] using h
      set st := (unitsOfText text).foldl (processUnit limit) ([], []) with hst
      have htext_ne : text ≠ [] := by simpa [List.isEmpty_iff] using hempty
      by_cases hcur : st.2.isEmpty
      · have hcur' : st.2 = [] := List.isEmpty_iff.mp hcur
        have hflat1 : st.1.flatten = text := by
          rw [hcur'] at hflat
          simpa using hflat
        have hne : ¬st.1.isEmpty := by
          rw [List.isEmpty_iff]
          intro hc
          rw [hc] at hflat1
          exact htext_ne hflat1.symm
        refine ⟨st.1, ?_, hflat1, hfold.2.1⟩
        rw [chunk_text_main_branch text limit (by omega) hempty hfits, ← hst]
        rw [if_pos hcur, if_neg hne]
      · have hne : ¬(st.1 ++ [st.2]).isEmpty := by simp
        refine ⟨st.1 ++ [st.2], ?_, ?_, ?_⟩
        · rw [chunk_text_main_branch text limit (by omega) hempty hfits, ← hst]
          rw [if_neg hcur, if_neg hne]
        · rw [List.flatten_append, List.flatten_cons, List.flatten_nil, List.append_nil]
          exact hflat
        · intro ch hch
          rcases List.mem_append.mp hch with hmem | hmem
          · exact hfold.2.1 ch hmem
          · rw [List.mem_singleton.mp hmem]
            exact Nat.le_of_lt hfold.1

/-- C1 witness: the round-trip theorem applied at a concrete text and
limit. -/
theorem C1_chunk_text_roundtrip_witness :
    1 ≤ 5 ∧ ∃ chunks, chunk_text "hello world".toList 5 = some chunks ∧
      chunks.flatten = "hello world".toList ∧ ∀ ch ∈ chunks, ch.length ≤ 5 :=
  ⟨by decide, C1_chunk_text_roundtrip "hello world".toList 5 (by decide)⟩

/-- C2 counterexample: in `chunk_text "aa bb" 4` no single word exceeds the
limit 4 (the words are `"aa"` and `"bb"`), yet the produced chunks are
`["aa b", "b"]`: the boundary between the two chunks falls in the middle of
the word `"bb"` (the first chunk ends with a non-space character and the
second begins with one), refuting the claim that no chunk boundary falls
inside a word when every word fits the limit. -/
theorem C2_counterexample_midword_break :
    chunk_text "aa bb".toList 4 = some ["aa b".toList, "b".toList] ∧
    (∀ w ∈ splitOnChar ' ' "aa bb".toList, w.length ≤ 4) ∧
    ("aa b".toList).getLast? = some 'b' ∧ ("b".toList).head? = some 'b' := by
  refine ⟨?_, by decide, by decide, by decide⟩
  simp [chunk_text, unitsOfText, unitsOfPara, unitsOfLine, splitOnNN, splitOnChar,
    List.intersperse, processUnit, consumeUnit, availAfterFix, fixState, String.toList]

/-- C2 (amended): the packing loop of `chunk_text` consumes the
paragraph/line/word units produced by `_split_recursive`, and a unit is kept
intact exactly when it fits in the space remaining in the current chunk; a
unit that does not fit the remaining space is split at the chunk boundary
even when the unit itself is no longer than the limit, so a chunk boundary
can fall in the middle of a word. -/
theorem C2_fitting_unit_not_split (limit : Nat) (chunks : List (List Char))
    (current u : List Char) (hl : 1 ≤ limit) (hcur : current.length < limit)
    (hfit : current.length + u.length ≤ limit) :
    consumeUnit limit chunks current u =
      if current.length + u.length = limit then (chunks ++ [current ++ u], [], [])
      else (chunks, current ++ u, []) := by
  cases u with
  | nil =>
    simp only [consumeUnit]
    rw [if_neg (by simp; omega)]
    simp
  | cons c rest =>
    rw [consumeUnit_cons_eq limit chunks current c rest hcur]
    have hmin : min (rest.length + 1) (limit - current.length) = rest.length + 1 := by
      simp only [List.length_cons] at hfit
      omega
    rw [hmin]
    rw [List.take_of_length_le (by simp), List.drop_eq_nil_of_le (by simp)]
    by_cases hcase : current.length + (c :: rest).length = limit
    · rw [if_pos (by simp only [List.length_append]; omega)]
      rw [if_pos hcase]
      simp only [consumeUnit]
    · rw [if_neg (by simp only [List.length_append]; omega)]
      rw [if_neg hcase]
      simp only [consumeUnit]

/-- C2 witness: the amended theorem applied at a concrete state where the
unit fits the remaining space of the current chunk. -/
theorem C2_fitting_unit_not_split_witness :
    consumeUnit 4 [] "ab".toList "c".toList = ([], "abc".toList, []) := by
  have h := C2_fitting_unit_not_split 4 [] "ab".toList "c".toList
    (by decide) (by decide) (by decide)
  simpa using h

lemma not_hasTriple_short {s : List Char} (h : s.length ≤ 2) : ¬HasTriple s := by
  rintro ⟨l, r, rfl⟩
  simp [List.length_append] at h
  omega

lemma hasTriple_cons_iff (c : Char) (t : List Char) :
    HasTriple (c :: t) ↔ (c = '\x60' ∧ ∃ r, t = '\x60' :: '\x60' :: r) ∨ HasTriple t := by
  constructor
  · rintro ⟨l, r, hlr⟩
    cases l with
    | nil =>
      simp only [List.nil_append, List.cons_append, List.cons.injEq] at hlr
      exact Or.inl ⟨hlr.1, r, hlr.2⟩
    | cons a l' =>
      simp only [List.cons_append, List.cons.injEq] at hlr
      exact Or.inr ⟨l', r, hlr.2⟩
  · rintro (⟨rfl, r, rfl⟩ | ⟨l, r, rfl⟩)
    · exact ⟨[], r, rfl⟩
    · exact ⟨c :: l, r, rfl⟩

lemma hasTriple_of_tail {c : Char} {t : List Char} (h : HasTriple t) : HasTriple (c :: t) :=
  (hasTriple_cons_iff c t).mpr (Or.inr h)

lemma not_hasTriple_tail {c : Char} {t : List Char} (h : ¬HasTriple (c :: t)) : ¬HasTriple t :=
  fun hc => h (hasTriple_of_tail hc)

lemma not_hasTriple_of_append_left {a b : List Char} (h : ¬HasTriple (a ++ b)) :
    ¬HasTriple a := by
  rintro ⟨l, r, rfl⟩
  exact h ⟨l, r ++ b, by simp [List.append_assoc]⟩

lemma not_hasTriple_of_append_right {a b : List Char} (h : ¬HasTriple (a ++ b)) :
    ¬HasTriple b := by
  rintro ⟨l, r, rfl⟩
  exact h ⟨a ++ l, r, by simp [List.append_assoc]⟩

lemma removeTicks_cons_of_ne (c : Char) (rest : List Char) (h : ¬c = '\x60') :
    removeTicks (c :: rest) = c :: removeTicks rest := by
  match rest with
  | [] => rfl
  | [c2] => rfl
  | c2 :: c3 :: r =>
    rw [removeTicks, if_neg (by tauto)]

lemma removeTicks_no_triple : ∀ s : List Char, ¬HasTriple (removeTicks s) := by
  intro s
  induction s using removeTicks.induct with
  | case1 => exact not_hasTriple_short (by simp [removeTicks])
  | case2 c => exact not_hasTriple_short (by simp [removeTicks])
  | case3 c1 c2 => exact not_hasTriple_short (by simp [removeTicks])
  | case4 c1 c2 c3 rest hcond ih => rw [removeTicks, if_pos hcond]; exact ih
  | case5 c1 c2 c3 rest hcond ih =>
    rw [removeTicks, if_neg hcond]
    rw [hasTriple_cons_iff]
    rintro (⟨rfl, rr, hM⟩ | hT)
    · by_cases hc2 : c2 = '\x60'
      · subst hc2
        have hc3 : ¬c3 = '\x60' := fun hc => hcond ⟨rfl, rfl, hc⟩
        cases rest with
        | nil =>
          simp only [removeTicks, List.cons.injEq] at hM
          exact hc3 hM.2.1
        | cons r1 rest' =>
          rw [removeTicks, if_neg (fun hc => hc3 hc.2.1)] at hM
          rw [removeTicks_cons_of_ne c3 (r1 :: rest') hc3] at hM
          simp only [List.cons.injEq] at hM
          exact hc3 hM.2.1
      · rw [removeTicks_cons_of_ne c2 (c3 :: rest) hc2] at hM
        simp only [List.cons.injEq] at hM
        exact hc2 hM.1
    · exact ih hT

lemma removeTicks_eq_self : ∀ s : List Char, ¬HasTriple s → removeTicks s = s := by
  intro s
  induction s using removeTicks.induct with
  | case1 => intro h; rfl
  | case2 c => intro h; rfl
  | case3 c1 c2 => intro h; rfl
  | case4 c1 c2 c3 rest hcond ih =>
    intro h
    obtain ⟨h1, h2, h3⟩ := hcond
    subst h1; subst h2; subst h3
    exact absurd ⟨[], rest, rfl⟩ h
  | case5 c1 c2 c3 rest hcond ih =>
    intro h
    rw [removeTicks, if_neg hcond, ih (not_hasTriple_tail h)]

lemma collapseWs_eq_tick_cons {rest tail : List Char}
    (h : collapseWs rest = '\x60' :: tail) :
    ∃ r2, rest = '\x60' :: r2 ∧ tail = collapseWs r2 := by
  cases rest with
  | nil => simp [collapseWs] at h
  | cons d r =>
    rw [collapseWs] at h
    by_cases hd : isPySpace d
    · rw [if_pos hd] at h
      simp only [List.cons.injEq] at h
      exact absurd h.1 (by decide)
    · rw [if_neg hd] at h
      simp only [List.cons.injEq] at h
      exact ⟨r, by rw [h.1], h.2.symm⟩

lemma cons_collapseWs_no_triple {c : Char} {rest : List Char}
    (hs : ¬HasTriple (c :: rest)) (ihW : ¬HasTriple (collapseWs rest)) :
    ¬HasTriple (c :: collapseWs rest) := by
  rw [hasTriple_cons_iff]
  rintro (⟨rfl, rr, hM⟩ | hT)
  · obtain ⟨r2, hr2, htail⟩ := collapseWs_eq_tick_cons hM
    obtain ⟨r3, hr3, _⟩ := collapseWs_eq_tick_cons htail.symm
    exact hs ⟨[], r3, by rw [hr2, hr3]; rfl⟩
  · exact ihW hT

lemma collapse_no_triple : ∀ (n : Nat) (s : List Char), s.length ≤ n → ¬HasTriple s →
    ¬HasTriple (collapseWs s) ∧ ¬HasTriple (collapseInRun s) := by
  intro n
  induction n with
  | zero =>
    intro s hlen hs
    have hnil : s = [] := List.length_eq_zero.mp (Nat.le_zero.mp hlen)
    subst hnil
    exact ⟨not_hasTriple_short (by simp [collapseWs]),
      not_hasTriple_short (by simp [collapseInRun])⟩
  | succ m ih =>
    intro s hlen hs
    cases s with
    | nil =>
      exact ⟨not_hasTriple_short (by simp [collapseWs]),
        not_hasTriple_short (by simp [collapseInRun])⟩
    | cons c rest =>
      have hrest : rest.length ≤ m := by simp only [List.length_cons] at hlen; omega
      have htail : ¬HasTriple rest := not_hasTriple_tail hs
      have ihr := ih rest hrest htail
      constructor
      · rw [collapseWs]
        by_cases hc : isPySpace c
        · rw [if_pos hc]
          rw [hasTriple_cons_iff]
          rintro (⟨hsp, -⟩ | hT)
          · exact absurd hsp (by decide)
          · exact ihr.2 hT
        · rw [if_neg hc]
          exact cons_collapseWs_no_triple hs ihr.1
      · rw [collapseInRun]
        by_cases hc : isPySpace c
        · rw [if_pos hc]; exact ihr.2
        · rw [if_neg hc]; exact cons_collapseWs_no_triple hs ihr.1

lemma collapse_space_chars : ∀ (n : Nat) (s : List Char), s.length ≤ n →
    (∀ c ∈ collapseWs s, isPySpace c = true → c = ' ') ∧
    (∀ c ∈ collapseInRun s, isPySpace c = true → c = ' ') := by
  intro n
  induction n with
  | zero =>
    intro s hlen
    have hnil : s = [] := List.length_eq_zero.mp (Nat.le_zero.mp hlen)
    subst hnil
    exact ⟨by simp [collapseWs], by simp [collapseInRun]⟩
  | succ m ih =>
    intro s hlen
    cases s with
    | nil => exact ⟨by simp [collapseWs], by simp [collapseInRun]⟩
    | cons c rest =>
      have hrest : rest.length ≤ m := by simp only [List.length_cons] at hlen; omega
      have ihr := ih rest hrest
      constructor
      · rw [collapseWs]
        by_cases hc : isPySpace c
        · rw [if_pos hc]
          intro x hx hxs
          rcases List.mem_cons.mp hx with rfl | hmem
          · rfl
          · exact ihr.2 x hmem hxs
        · rw [if_neg hc]
          intro x hx hxs
          rcases List.mem_cons.mp hx with rfl | hmem
          · exact absurd hxs (by simpa using hc)
          · exact ihr.1 x hmem hxs
      · rw [collapseInRun]
        by_cases hc : isPySpace c
        · rw [if_pos hc]; exact ihr.2
        · rw [if_neg hc]
          intro x hx hxs
          rcases List.mem_cons.mp hx with rfl | hmem
          · exact absurd hxs (by simpa using hc)
          · exact ihr.1 x hmem hxs

lemma collapseInRun_head_not_space : ∀ (s : List Char) {d : Char} {tail : List Char},
    collapseInRun s = d :: tail → isPySpace d = false := by
  intro s
  induction s with
  | nil => intro d tail h; simp [collapseInRun] at h
  | cons c rest ih =>
    intro d tail h
    rw [collapseInRun] at h
    by_cases hc : isPySpace c
    · rw [if_pos hc] at h; exact ih h
    · rw [if_neg hc] at h
      simp only [List.cons.injEq] at h
      rw [← h.1]
      simpa using hc

lemma noAdjSpace_cons_cons {c d : Char} {t : List Char} :
    noAdjSpace (c :: d :: t) ↔
      ¬(isPySpace c = true ∧ isPySpace d = true) ∧ noAdjSpace (d :: t) := Iff.rfl

lemma noAdjSpace_tail {c : Char} {t : List Char} (h : noAdjSpace (c :: t)) : noAdjSpace t := by
  cases t with
  | nil => trivial
  | cons d r => exact (noAdjSpace_cons_cons.mp h).2

lemma noAdjSpace_cons_of {c : Char} {M : List Char} (hM : noAdjSpace M)
    (hhead : ∀ d tail, M = d :: tail → ¬(isPySpace c = true ∧ isPySpace d = true)) :
    noAdjSpace (c :: M) := by
  cases M with
  | nil => trivial
  | cons d tail => exact noAdjSpace_cons_cons.mpr ⟨hhead d tail rfl, hM⟩

lemma collapseWs_head_space_or (s : List Char) {d : Char} {tail : List Char}
    (h : collapseWs s = d :: tail) : d = ' ' ∨ isPySpace d = false := by
  cases s with
  | nil => simp [collapseWs] at h
  | cons c rest =>
    rw [collapseWs] at h
    by_cases hc : isPySpace c
    · rw [if_pos hc] at h
      simp only [List.cons.injEq] at h
      exact Or.inl h.1.symm
    · rw [if_neg hc] at h
      simp only [List.cons.injEq] at h
      rw [← h.1]
      exact Or.inr (by simpa using hc)

lemma collapse_noAdjSpace : ∀ (n : Nat) (s : List Char), s.length ≤ n →
    noAdjSpace (collapseWs s) ∧ noAdjSpace (collapseInRun s) := by
  intro n
  induction n with
  | zero =>
    intro s hlen
    have hnil : s = [] := List.length_eq_zero.mp (Nat.le_zero.mp hlen)
    subst hnil
    exact ⟨by simp [collapseWs]; trivial, by simp [collapseInRun]; trivial⟩
  | succ m ih =>
    intro s hlen
    cases s with
    | nil => exact ⟨by simp [collapseWs]; trivial, by simp [collapseInRun]; trivial⟩
    | cons c rest =>
      have hrest : rest.length ≤ m := by simp only [List.length_cons] at hlen; omega
      have ihr := ih rest hrest
      constructor
      · rw [collapseWs]
        by_cases hc : isPySpace c
        · rw [if_pos hc]
          refine noAdjSpace_cons_of ihr.2 ?_
          intro d tail hdt hcontra
          have := collapseInRun_head_not_space rest hdt
          rw [this] at hcontra
          exact Bool.false_ne_true hcontra.2
        · rw [if_neg hc]
          refine noAdjSpace_cons_of ihr.1 ?_
          intro d tail hdt hcontra
          exact hc hcontra.1
      · rw [collapseInRun]
        by_cases hc : isPySpace c
        · rw [if_pos hc]; exact ihr.2
        · rw [if_neg hc]
          refine noAdjSpace_cons_of ihr.1 ?_
          intro d tail hdt hcontra
          exact hc hcontra.1

lemma collapseInRun_eq_collapseWs_of_head {s : List Char}
    (hhead : ∀ d tail, s = d :: tail → isPySpace d = false) :
    collapseInRun s = collapseWs s := by
  cases s with
  | nil => rfl
  | cons d tail =>
    have hd := hhead d tail rfl
    rw [collapseInRun, collapseWs, if_neg (by simp [hd]), if_neg (by simp [hd])]

lemma collapseWs_eq_self : ∀ s : List Char,
    (∀ c ∈ s, isPySpace c = true → c = ' ') → noAdjSpace s → collapseWs s = s := by
  intro s
  induction s with
  | nil => intro _ _; rfl
  | cons c rest ih =>
    intro hmem hadj
    have htailmem : ∀ x ∈ rest, isPySpace x = true → x = ' ' :=
      fun x hx => hmem x (List.mem_cons_of_mem c hx)
    rw [collapseWs]
    by_cases hc : isPySpace c
    · rw [if_pos hc]
      have hc' : c = ' ' := hmem c (List.mem_cons_self c rest) hc
      have hrun : collapseInRun rest = collapseWs rest := by
        apply collapseInRun_eq_collapseWs_of_head
        intro d tail hdt
        subst hdt
        have hpair := (noAdjSpace_cons_cons.mp hadj).1
        by_cases hd : isPySpace d
        · exact absurd ⟨hc, hd⟩ hpair
        · simpa using hd
      rw [hrun, ih htailmem (noAdjSpace_tail hadj), hc']
    · rw [if_neg hc, ih htailmem (noAdjSpace_tail hadj)]

lemma rstripSpaces_prefix_self : ∀ s : List Char, rstripSpaces s <+: s := by
  intro s
  induction s with
  | nil => exact List.nil_prefix
  | cons c rest ih =>
    rw [rstripSpaces]
    cases hR : rstripSpaces rest with
    | nil =>
      by_cases hc : isPySpace c
      · rw [if_pos hc]; exact List.nil_prefix
      · rw [if_neg hc]
        exact List.cons_prefix_cons.mpr ⟨rfl, List.nil_prefix⟩
    | cons d r =>
      rw [hR] at ih
      exact List.cons_prefix_cons.mpr ⟨rfl, ih⟩

lemma rstripSpaces_idem : ∀ s : List Char, rstripSpaces (rstripSpaces s) = rstripSpaces s := by
  intro s
  induction s with
  | nil => rfl
  | cons c rest ih =>
    rw [rstripSpaces]
    cases hR : rstripSpaces rest with
    | nil =>
      by_cases hc : isPySpace c
      · rw [if_pos hc]; rfl
      · rw [if_neg hc]
        rw [rstripSpaces, rstripSpaces, if_neg hc]
    | cons d r =>
      rw [hR] at ih
      rw [rstripSpaces, ih]

lemma dropWhile_head_false {p : Char → Bool} :
    ∀ (s : List Char) {c : Char} {t : List Char}, List.dropWhile p s = c :: t → p c = false := by
  intro s
  induction s with
  | nil => intro c t h; simp [List.dropWhile] at h
  | cons x rest ih =>
    intro c t h
    rw [List.dropWhile] at h
    by_cases hx : p x
    · rw [hx] at h
      exact ih h
    · have hx' : p x = false := by simpa using hx
      rw [hx'] at h
      simp only [List.cons.injEq] at h
      rw [← h.1]
      exact hx'

lemma dropWhile_eq_self_of_head {p : Char → Bool} {s : List Char}
    (h : ∀ c t, s = c :: t → p c = false) : List.dropWhile p s = s := by
  cases s with
  | nil => rfl
  | cons c t =>
    rw [List.dropWhile, h c t rfl]

lemma noAdjSpace_of_append_left : ∀ (l r : List Char), noAdjSpace (l ++ r) → noAdjSpace l := by
  intro l
  induction l with
  | nil => intro r _; trivial
  | cons c ls ih =>
    intro r h
    cases ls with
    | nil => trivial
    | cons d ls' =>
      rw [List.cons_append] at h
      have h' := noAdjSpace_cons_cons.mp h
      exact noAdjSpace_cons_cons.mpr ⟨h'.1, ih r h'.2⟩

lemma noAdjSpace_of_append_right : ∀ (l r : List Char), noAdjSpace (l ++ r) → noAdjSpace r := by
  intro l
  induction l with
  | nil => intro r h; exact h
  | cons c ls ih =>
    intro r h
    exact ih r (noAdjSpace_tail h)

lemma stripChars_head_false {z : List Char} {c : Char} {t : List Char}
    (h : stripChars z = c :: t) : isPySpace c = false := by
  obtain ⟨t2, ht2⟩ := rstripSpaces_prefix_self (List.dropWhile isPySpace z)
  rw [stripChars] at h
  rw [h] at ht2
  exact dropWhile_head_false z ht2.symm

lemma stripChars_stripChars (z : List Char) : stripChars (stripChars z) = stripChars z := by
  have h1 : List.dropWhile isPySpace (stripChars z) = stripChars z :=
    dropWhile_eq_self_of_head (fun c t hct => stripChars_head_false hct)
  show rstripSpaces (List.dropWhile isPySpace (stripChars z)) = stripChars z
  rw [h1, stripChars, rstripSpaces_idem]

lemma stripChars_sublist (z : List Char) : (stripChars z).Sublist z :=
  ((rstripSpaces_prefix_self (List.dropWhile isPySpace z)).sublist).trans
    ((List.dropWhile_suffix isPySpace).sublist)

lemma stripChars_no_triple {z : List Char} (h : ¬HasTriple z) : ¬HasTriple (stripChars z) := by
  obtain ⟨a, ha⟩ := List.dropWhile_suffix (l := z) isPySpace
  obtain ⟨b, hb⟩ := rstripSpaces_prefix_self (List.dropWhile isPySpace z)
  have h2 : ¬HasTriple (List.dropWhile isPySpace z) := by
    rw [← ha] at h
    exact not_hasTriple_of_append_right h
  rw [← hb] at h2
  exact not_hasTriple_of_append_left h2

lemma stripChars_noAdjSpace {z : List Char} (h : noAdjSpace z) : noAdjSpace (stripChars z) := by
  obtain ⟨a, ha⟩ := List.dropWhile_suffix (l := z) isPySpace
  obtain ⟨b, hb⟩ := rstripSpaces_prefix_self (List.dropWhile isPySpace z)
  have h2 : noAdjSpace (List.dropWhile isPySpace z) := by
    rw [← ha] at h
    exact noAdjSpace_of_append_right a _ h
  rw [← hb] at h2
  exact noAdjSpace_of_append_left _ b h2

lemma sanitize_invariants (x : List Char) :
    ¬HasTriple (sanitize x) ∧ (∀ c ∈ sanitize x, isPySpace c = true → c = ' ') ∧
      noAdjSpace (sanitize x) := by
  have hrt : ¬HasTriple (removeTicks x) := removeTicks_no_triple x
  have hcol : ¬HasTriple (collapseWs (removeTicks x)) :=
    (collapse_no_triple (removeTicks x).length (removeTicks x) le_rfl hrt).1
  refine ⟨stripChars_no_triple hcol, ?_, stripChars_noAdjSpace
    (collapse_noAdjSpace (removeTicks x).length (removeTicks x) le_rfl).1⟩
  intro c hc
  exact (collapse_space_chars (removeTicks x).length (removeTicks x) le_rfl).1 c
    ((stripChars_sublist (collapseWs (removeTicks x))).mem hc)

/-- C8: the sanitize operation of the prompt guard is idempotent: sanitizing
an already sanitized text changes nothing, for every input. -/
theorem C8_sanitize_idempotent (x : List Char) : sanitize (sanitize x) = sanitize x := by
  obtain ⟨hT, hmem, hadj⟩ := sanitize_invariants x
  show stripChars (collapseWs (removeTicks (sanitize x))) = sanitize x
  rw [removeTicks_eq_self (sanitize x) hT, collapseWs_eq_self (sanitize x) hmem hadj]
  exact stripChars_stripChars (collapseWs (removeTicks x))

/-- C7 counterexample: the 50-character string of fifty letters a sanitizes
to itself (length 50) and contains no forbidden term, yet validation reports
a missing required keyword rather than prompt_too_short: the
required-keyword checks run before the length check. -/
theorem C7_counterexample_required_before_length :
    (sanitize (List.replicate 50 'a')).length = 50 ∧
    FORBIDDEN_KEYWORDS.find?
        (fun k => containsSub k (lowerStr (sanitize (List.replicate 50 'a')))) = none ∧
    validate_prompt (List.replicate 50 'a') = (false, "missing_required:leather".toList) ∧
    validate_prompt (List.replicate 50 'a') ≠ (false, "prompt_too_short".toList) := by
  refine ⟨by decide, by decide, by decide, by decide⟩

/-- C7 (amended): for every input whose sanitized form is exactly 50
characters long, contains no forbidden term, and contains every required
term, validation under the reference policy (200-character minimum) returns
(false, prompt_too_short); if a required term is missing, the earlier
missing-required check reports that instead. -/
theorem C7_prompt_too_short (x : List Char) (hlen : (sanitize x).length = 50)
    (hforb : ∀ k ∈ FORBIDDEN_KEYWORDS, containsSub k (lowerStr (sanitize x)) = false)
    (hreq : ∀ k ∈ REQUIRED_KEYWORDS, containsSub k (lowerStr (sanitize x)) = true) :
    validate_prompt x = (false, "prompt_too_short".toList) := by
  have hne : (sanitize x).isEmpty = false := by
    rcases hs : sanitize x with _ | ⟨c, t⟩
    · rw [hs] at hlen; simp at hlen
    · rfl
  have hf : FORBIDDEN_KEYWORDS.find? (fun k => containsSub k (lowerStr (sanitize x))) = none :=
    List.find?_eq_none.mpr (fun k hk => by simp [hforb k hk])
  have hr : REQUIRED_KEYWORDS.find? (fun k => !containsSub k (lowerStr (sanitize x))) = none :=
    List.find?_eq_none.mpr (fun k hk => by simp [hreq k hk])
  simp only [validate_prompt, hne, hf, hr, hlen, MIN_LENGTH]
  norm_num

/-- C7 witness: the amended theorem applied to a concrete 50-character clean
input containing both required terms. -/
theorem C7_prompt_too_short_witness :
    validate_prompt ("leather vertical".toList ++ List.replicate 34 'a') =
      (false, "prompt_too_short".toList) :=
  C7_prompt_too_short ("leather vertical".toList ++ List.replicate 34 'a')
    (by decide) (by decide) (by decide)

/-- C10: the guard never accepts a text whose sanitized, lowercased form
contains the substring lv: the deny-list contains the entry lv and matching
is raw case-insensitive substring search, so the validation verdict is
negative with a forbidden-keyword reason (whichever deny-list entry is found
first). -/
theorem C10_lv_always_rejected (text : List Char)
    (h : containsSub "lv".toList (lowerStr (sanitize text)) = true) :
    (validate_prompt text).1 = false ∧
    ∃ k, k ∈ FORBIDDEN_KEYWORDS ∧
      (validate_prompt text).2 = "forbidden_keyword:".toList ++ k := by
  have hne : (sanitize text).isEmpty = false := by
    rcases hs : sanitize text with _ | ⟨c, t⟩
    · rw [hs] at h; simp [containsSub, lowerStr] at h
    · rfl
  rcases hf : FORBIDDEN_KEYWORDS.find? (fun k => containsSub k (lowerStr (sanitize text)))
    with _ | k
  · exfalso
    have hall := List.find?_eq_none.mp hf ("lv".toList) (by decide)
    simp only [h] at hall
    exact hall trivial
  · refine ⟨?_, k, List.mem_of_find?_eq_some hf, ?_⟩
    · simp only [validate_prompt, hne, hf]
      rfl
    · simp only [validate_prompt, hne, hf]
      rfl

/-- C10 witness: a text containing the benign word velvet is rejected with a
forbidden-keyword reason. -/
theorem C10_lv_always_rejected_witness :
    (validate_prompt "velvet".toList).1 = false ∧
    ∃ k, k ∈ FORBIDDEN_KEYWORDS ∧
      (validate_prompt "velvet".toList).2 = "forbidden_keyword:".toList ++ k :=
  C10_lv_always_rejected "velvet".toList (by decide)

/-- C3 counterexample: with both attempts completing and returning a text
whose guard verdict is (false, prompt_too_short), the operation fails with
the fixed message "prompt_guard_blocked": the error does not carry the last
recorded rejection reason (which is only logged). -/
theorem C3_counterexample_fixed_reason :
    AssistantService.generate_prompt_text
        (fun _ => ⟨some "completed".toList, some "too short leather vertical".toList⟩) =
      Except.error ("prompt_guard_blocked".toList) ∧
    validate_prompt (sanitize "too short leather vertical".toList) =
      (false, "prompt_too_short".toList) ∧
    "prompt_guard_blocked".toList ≠ "prompt_too_short".toList := by
  refine ⟨rfl, by decide, by decide⟩

/-- C3 (amended): prompt synthesis performs at most two attempts — the result
depends only on the first two oracle entries, each attempt consuming its own
entry (a fresh composition per attempt) — and when the guard rejects the
sanitized output of every attempt it fails with the fixed error
"prompt_guard_blocked"; the last recorded rejection reason is only logged,
not carried by the error. -/
theorem C3_two_attempts_guard_blocked (envs : Nat → AssistantService.AttemptEnv)
    (hrej : ∀ i, i < 2 → (envs i).runResult = some ("completed".toList) ∧
      ∃ raw, (envs i).extractedText = some raw ∧ (sanitize raw).isEmpty = false ∧
        (validate_prompt (sanitize raw)).1 = false) :
    AssistantService.generate_prompt_text envs = Except.error ("prompt_guard_blocked".toList) ∧
    ∀ envs' : Nat → AssistantService.AttemptEnv, envs' 0 = envs 0 → envs' 1 = envs 1 →
      AssistantService.generate_prompt_text envs' =
        AssistantService.generate_prompt_text envs := by
  constructor
  · obtain ⟨hrun0, raw0, hext0, hsan0, hval0⟩ := hrej 0 (by omega)
    obtain ⟨hrun1, raw1, hext1, hsan1, hval1⟩ := hrej 1 (by omega)
    show AssistantService.generateGo envs 0 2 none = Except.error ("prompt_guard_blocked".toList)
    simp [AssistantService.generateGo, hrun0, hext0, hsan0, hval0, hrun1, hext1, hsan1, hval1]
  · intro envs' h0 h1
    show AssistantService.generateGo envs' 0 2 none = AssistantService.generateGo envs 0 2 none
    simp only [AssistantService.generateGo, h0, h1]

/-- C3 witness: the amended theorem applied at a concrete oracle whose two
attempts both complete with a guard-rejected text. -/
theorem C3_two_attempts_guard_blocked_witness :
    AssistantService.generate_prompt_text
        (fun _ => ⟨some "completed".toList, some "short leather vertical".toList⟩) =
      Except.error ("prompt_guard_blocked".toList) :=
  (C3_two_attempts_guard_blocked
      (fun _ => ⟨some "completed".toList, some "short leather vertical".toList⟩)
      (fun _ _ => ⟨rfl, "short leather vertical".toList, rfl, by decide, by decide⟩)).1

/-- C6 counterexample: when the first attempt's run ends with the terminal
status failed, the raised error message is "assistant_run_failed", not
"run_failed" as the claim words the reason. -/
theorem C6_counterexample_reason_string :
    AssistantService.generate_prompt_text (fun _ => ⟨some "failed".toList, none⟩) =
      Except.error ("assistant_run_failed".toList) ∧
    "assistant_run_failed".toList ≠ "run_failed".toList := by
  refine ⟨rfl, by decide⟩

/-- C6 (amended): if on any attempt reached by the loop — attempt 0, or
attempt 1 after every earlier attempt completed but was guard-rejected — the
external run finishes with a terminal status other than completed, the
operation fails immediately with an error whose message is "assistant_run_"
followed by the status, and no further attempt of the loop is executed: the
result is fixed by the attempts up to the failing one, for every oracle. -/
theorem C6_run_failure_immediate (envs : Nat → AssistantService.AttemptEnv) (i : Nat)
    (status : List Char) (hi : i < 2)
    (hprev : ∀ j, j < i → (envs j).runResult = some ("completed".toList) ∧
      ∃ raw, (envs j).extractedText = some raw ∧ (sanitize raw).isEmpty = false ∧
        (validate_prompt (sanitize raw)).1 = false)
    (hrun : (envs i).runResult = some status) (hne : status ≠ "completed".toList) :
    AssistantService.generate_prompt_text envs =
      Except.error ("assistant_run_".toList ++ status) := by
  show AssistantService.generateGo envs 0 2 none =
    Except.error ("assistant_run_".toList ++ status)
  interval_cases i
  · simp only [AssistantService.generateGo, hrun]
    rw [if_pos hne]
  · obtain ⟨hrun0, raw0, hext0, hsan0, hval0⟩ := hprev 0 (by omega)
    simp only [AssistantService.generateGo, hrun0, hext0, hsan0, hval0, hrun]
    rw [if_neg (by simp), if_neg (by simp [hsan0]), if_neg (by simp [hval0]), if_pos hne]

/-- C6 witness: the amended theorem applied at a concrete oracle whose first
attempt completes with a guard-rejected text and whose second attempt's run
ends with the terminal status failed. -/
theorem C6_run_failure_immediate_witness :
    AssistantService.generate_prompt_text
        (fun k => if k = 0 then ⟨some "completed".toList, some "tiny leather vertical".toList⟩
          else ⟨some "failed".toList, none⟩) =
      Except.error ("assistant_run_".toList ++ "failed".toList) :=
  C6_run_failure_immediate
    (fun k => if k = 0 then ⟨some "completed".toList, some "tiny leather vertical".toList⟩
      else ⟨some "failed".toList, none⟩)
    1 "failed".toList (by omega)
    (fun j hj => by
      have hj0 : j = 0 := by omega
      subst hj0
      exact ⟨rfl, "tiny leather vertical".toList, rfl, by decide, by decide⟩)
    rfl (by decide)

/-- C4: under the image-engine retry policy, a first-invocation success is
returned as is; a first failure not classified as transient propagates
immediately; after a transient first failure the result is exactly the
outcome of the second invocation, so any second failure propagates; and the
result depends only on the outcomes of invocations 0 and 1 — the wrapped
callable is never invoked a third time. -/
theorem C4_run_with_retry_policy {α : Type} (f : Nat → Except GemErr α) :
    (∀ a, f 0 = Except.ok a → run_with_retry f = Except.ok a) ∧
    (∀ e, f 0 = Except.error e → is_transient_error e = false →
      run_with_retry f = Except.error e) ∧
    (∀ e, f 0 = Except.error e → is_transient_error e = true → run_with_retry f = f 1) ∧
    (∀ g : Nat → Except GemErr α, f 0 = g 0 → f 1 = g 1 →
      run_with_retry f = run_with_retry g) := by
  refine ⟨?_, ?_, ?_, ?_⟩
  · intro a h
    show runWithRetryGo f 0 2 none = Except.ok a
    simp only [runWithRetryGo, h]
  · intro e h ht
    show runWithRetryGo f 0 2 none = Except.error e
    simp only [runWithRetryGo, h]
    rw [if_neg (by simp [ht])]
  · intro e h ht
    show runWithRetryGo f 0 2 none = f 1
    simp only [runWithRetryGo, h]
    rw [if_pos ⟨trivial, ht⟩]
    cases hf1 : f 1 with
    | ok a => simp only [runWithRetryGo, hf1]
    | error e2 =>
      simp only [runWithRetryGo, hf1]
      rw [if_neg (by simp)]
  · intro g h0 h1
    show runWithRetryGo f 0 2 none = runWithRetryGo g 0 2 none
    simp only [runWithRetryGo, h0, h1]

/-- C4 witness: the retry policy applied to a callable that fails with a
connection error on every invocation: the second failure propagates. -/
theorem C4_run_with_retry_policy_witness :
    run_with_retry (fun _ => (Except.error ⟨true, none, none, none, []⟩ :
        Except GemErr Nat)) = Except.error ⟨true, none, none, none, []⟩ :=
  (C4_run_with_retry_policy
      (fun _ => (Except.error ⟨true, none, none, none, []⟩ : Except GemErr Nat))).2.2.1
    ⟨true, none, none, none, []⟩ rfl (by decide)

lemma genExit_ok {n : Nat} (hn : 1 ≤ n) {images imgs : List (List Nat)}
    (h : (if images.isEmpty then
            (Except.error ("no_images_generated".toList) :
              Except (List Char) (List (List Nat)))
          else Except.ok (if n < images.length then images.take n else images)) =
        Except.ok imgs) :
    1 ≤ imgs.length ∧ imgs.length ≤ n := by
  by_cases he : images.isEmpty
  · rw [if_pos he] at h
    exact absurd h (by simp)
  · rw [if_neg he] at h
    have himg : images ≠ [] := by simpa [List.isEmpty_iff] using he
    have hpos : 0 < images.length := List.length_pos.mpr himg
    simp only [Except.ok.injEq] at h
    subst h
    by_cases hlt : n < images.length
    · rw [if_pos hlt]
      constructor
      · simp only [List.length_take]
        omega
      · simp only [List.length_take]
        omega
    · rw [if_neg hlt]
      omega

lemma genLoop_ok_bounds {n : Nat} (hn : 1 ≤ n) (hint : List Char)
    (A : List Char → Nat → ImagesApiOutcome)
    (M : List Char → Nat → Nat → Except (List Char) (List (List Nat))) :
    ∀ (fuel : Nat) (images : List (List Nat)) (attempts : Nat) (imgs : List (List Nat)),
      genLoop n hint A M fuel images attempts = Except.ok imgs →
      1 ≤ imgs.length ∧ imgs.length ≤ n := by
  intro fuel
  induction fuel with
  | zero =>
    intro images attempts imgs h
    simp only [genLoop] at h
    exact genExit_ok hn h
  | succ fm ih =>
    intro images attempts imgs h
    simp only [genLoop] at h
    by_cases hcond : images.length < n ∧ attempts < 2
    · rw [if_pos hcond] at h
      split at h
      · exact absurd h (by simp)
      · exact ih _ _ _ h
    · rw [if_neg hcond] at h
      exact genExit_ok hn h

/-- C5: for every valid input, whenever generate_images returns normally the
returned list holds between 1 and n payloads inclusive (results are
truncated to n), never zero; and when both interface passes together produce
no payload it fails with no_images_generated instead of returning. -/
theorem C5_generate_images_count (prompt : List Char) (n : Nat) (aspect fmt : List Char)
    (imagesApi : List Char → Nat → ImagesApiOutcome)
    (modelApi : List Char → Nat → Nat → Except (List Char) (List (List Nat))) :
    (∀ imgs, generate_images prompt n aspect fmt imagesApi modelApi = Except.ok imgs →
      1 ≤ imgs.length ∧ imgs.length ≤ n) ∧
    ((PromptGuard.stripChars prompt).isEmpty = false → 1 ≤ n → n ≤ 4 →
      PromptGuard.lowerStr fmt = "png".toList →
      (imagesApi (promptHint prompt aspect) n = ImagesApiOutcome.ok [] ∨
        (imagesApi (promptHint prompt aspect) n = ImagesApiOutcome.unavailable ∧
          modelApi (promptHint prompt aspect) 0 n = Except.ok [])) →
      modelApi (promptHint prompt aspect) 1 n = Except.ok [] →
      generate_images prompt n aspect fmt imagesApi modelApi =
        Except.error ("no_images_generated".toList)) := by
  constructor
  · intro imgs h
    rw [generate_images] at h
    by_cases h1 : (PromptGuard.stripChars prompt).isEmpty
    · rw [if_pos h1] at h
      exact absurd h (by simp)
    · rw [if_neg h1] at h
      by_cases h2 : ¬(1 ≤ n ∧ n ≤ 4)
      · rw [if_pos h2] at h
        exact absurd h (by simp)
      · rw [if_neg h2] at h
        by_cases h3 : PromptGuard.lowerStr fmt ≠ "png".toList
        · rw [if_pos h3] at h
          exact absurd h (by simp)
        · rw [if_neg h3] at h
          exact genLoop_ok_bounds (by omega) _ _ _ 2 [] 0 imgs h
  · intro hp hn1 hn4 hfmt hfirst hsecond
    have h0n : 0 < n := hn1
    rw [generate_images, if_neg (by simp [hp]), if_neg (by simp; omega),
      if_neg (by simp [hfmt])]
    rcases hfirst with hA | ⟨hA, hM⟩
    · simp [genLoop, hA, hsecond, h0n]
    · simp [genLoop, hA, hM, hsecond, h0n]

/-- C5 witness: a request for two images where both interface passes return
empty lists ends in the hard failure. -/
theorem C5_generate_images_count_witness :
    generate_images "x".toList 2 "VERTICAL".toList "png".toList
        (fun _ _ => ImagesApiOutcome.ok []) (fun _ _ _ => Except.ok []) =
      Except.error ("no_images_generated".toList) :=
  (C5_generate_images_count "x".toList 2 "VERTICAL".toList "png".toList
      (fun _ _ => ImagesApiOutcome.ok []) (fun _ _ _ => Except.ok [])).2
    (by decide) (by decide) (by decide) (by decide) (Or.inl rfl) rfl

/-- C9: for every list of more than ten images, both delivery entry points
fail with the album-limit error and their recorded client-call trace is
empty: no image is uploaded and no message is sent before the failure. -/
theorem C9_too_many_images (images : List (List Nat)) (promptText caption : List Char)
    (header : Option (List Char)) (h : 10 < images.length) :
    send_images_and_prompt images promptText header = ([], some tooManyMsg) ∧
    send_images_with_caption images caption = ([], some tooManyMsg) := by
  have hne : ¬images.isEmpty = true := by
    rw [List.isEmpty_iff]
    intro hc
    rw [hc] at h
    simp at h
  constructor
  · rw [send_images_and_prompt.eq_def, if_pos ⟨hne, h⟩]
  · rw [send_images_with_caption.eq_def, if_neg hne, if_pos h]

/-- C9 witness: delivery of eleven one-byte images fails with the album
limit error and an empty call trace. -/
theorem C9_too_many_images_witness :
    send_images_and_prompt (List.replicate 11 [0]) [] none = ([], some tooManyMsg) ∧
    send_images_with_caption (List.replicate 11 [0]) [] = ([], some tooManyMsg) :=
  C9_too_many_images (List.replicate 11 [0]) [] [] none (by decide)
